import Mathlib

/-!
Shallow embedding of the decoding pipeline in src/decoder.rs: the
classification type, the lossy ASCII decoder, the lossy UTF-8 decoder,
and the byte-aligned adapter, together with theorems settling the spec
claims. Bytes are modelled as natural numbers (values below 256 in
actual use), characters as Unicode code points (natural numbers).
-/

/-- The classification attached to each decoded unit (decoder.rs, `CharType`). -/
inductive CharType where
  | Ascii : CharType
  | Unicode : Nat → CharType
  | Unknown : CharType
deriving DecidableEq

/-- `CharType::size` from decoder.rs. -/
def CharType.size : CharType → Nat
  | CharType.Ascii => 1
  | CharType.Unicode n => n
  | CharType.Unknown => 1

/-- Code point of the replacement character U+FFFD, written as a literal in decoder.rs. -/
def replacementChar : Nat := 0xFFFD

/-- Code point of the filler glyph U+2022 emitted by `ByteAlignedDecoder::next`. -/
def fillerChar : Nat := 0x2022

/-- One step of UTF-8 decoding, following the validation rules of
`std::str::from_utf8` (well-formed UTF-8 per the Unicode standard: no
overlong forms, no surrogates, nothing above U+10FFFF).  On success it
returns the decoded code point and the remaining bytes. -/
def utf8DecodeOne : List Nat → Option (Nat × List Nat)
  | [] => none
  | b0 :: t =>
    if b0 ≤ 0x7F then
      some (b0, t)
    else if 0xC2 ≤ b0 ∧ b0 ≤ 0xDF then
      match t with
      | b1 :: r =>
        if 0x80 ≤ b1 ∧ b1 ≤ 0xBF then
          some ((b0 - 0xC0) * 0x40 + (b1 - 0x80), r)
        else none
      | [] => none
    else if 0xE0 ≤ b0 ∧ b0 ≤ 0xEF then
      match t with
      | b1 :: b2 :: r =>
        if (if b0 = 0xE0 then 0xA0 ≤ b1 ∧ b1 ≤ 0xBF
            else if b0 = 0xED then 0x80 ≤ b1 ∧ b1 ≤ 0x9F
            else 0x80 ≤ b1 ∧ b1 ≤ 0xBF) ∧ (0x80 ≤ b2 ∧ b2 ≤ 0xBF) then
          some ((b0 - 0xE0) * 0x1000 + (b1 - 0x80) * 0x40 + (b2 - 0x80), r)
        else none
      | _ => none
    else if 0xF0 ≤ b0 ∧ b0 ≤ 0xF4 then
      match t with
      | b1 :: b2 :: b3 :: r =>
        if (if b0 = 0xF0 then 0x90 ≤ b1 ∧ b1 ≤ 0xBF
            else if b0 = 0xF4 then 0x80 ≤ b1 ∧ b1 ≤ 0x8F
            else 0x80 ≤ b1 ∧ b1 ≤ 0xBF) ∧ (0x80 ≤ b2 ∧ b2 ≤ 0xBF) ∧ (0x80 ≤ b3 ∧ b3 ≤ 0xBF) then
          some ((b0 - 0xF0) * 0x40000 + (b1 - 0x80) * 0x1000 + (b2 - 0x80) * 0x40 + (b3 - 0x80), r)
        else none
      | _ => none
    else none

/-- Fuel-driven repetition of `utf8DecodeOne`; the fuel only needs to be at
least the number of bytes since every step consumes at least one byte. -/
def utf8DecodeAux : Nat → List Nat → Option (List Nat)
  | _, [] => some []
  | 0, _ :: _ => none
  | fuel + 1, b0 :: t =>
    match utf8DecodeOne (b0 :: t) with
    | none => none
    | some (c, r) => (utf8DecodeAux fuel r).map (fun cs => c :: cs)

/-- Model of `std::str::from_utf8` composed with `str::chars`: `some` of the
decoded code-point sequence when the byte list is valid UTF-8, else `none`. -/
def from_utf8 (l : List Nat) : Option (List Nat) := utf8DecodeAux l.length l

/-- Classification of a lead byte, mirroring the `match` on
`self.bytes[self.cursor]` in `LossyUTF8Decoder::next`; `none` is the
wildcard arm (stray continuation byte or invalid lead). -/
def classifyLead (b : Nat) : Option CharType :=
  if b ≤ 0x7F then some CharType.Ascii
  else if 0xC0 ≤ b ∧ b ≤ 0xDF then some (CharType.Unicode 2)
  else if 0xE0 ≤ b ∧ b ≤ 0xEF then some (CharType.Unicode 3)
  else if 0xF0 ≤ b ∧ b ≤ 0xF7 then some (CharType.Unicode 4)
  else none

/-- State of `LossyASCIIDecoder` (borrowed byte buffer plus cursor). -/
structure LossyASCIIDecoder where
  bytes : List Nat
  cursor : Nat
deriving DecidableEq

/-- `LossyASCIIDecoder::next` from decoder.rs. -/
def LossyASCIIDecoder.next : LossyASCIIDecoder → Option ((Nat × CharType) × LossyASCIIDecoder)
  | ⟨bytes, cursor⟩ =>
    if h : cursor < bytes.length then
      if bytes[cursor] ≤ 0x7F then
        some ((bytes[cursor], CharType.Ascii), ⟨bytes, cursor + 1⟩)
      else
        some ((replacementChar, CharType.Unknown), ⟨bytes, cursor + 1⟩)
    else
      none

/-- State of `LossyUTF8Decoder` (borrowed byte buffer plus cursor). -/
structure LossyUTF8Decoder where
  bytes : List Nat
  cursor : Nat
deriving DecidableEq

/-- The clamped slice `&self.bytes[self.cursor..new_cursor]` with
`new_cursor = self.bytes.len().min(self.cursor + info.size())`, the local
`chunk` of `LossyUTF8Decoder::next`. -/
def chunk (bytes : List Nat) (cursor : Nat) (info : CharType) : List Nat :=
  (bytes.take (min bytes.length (cursor + CharType.size info))).drop cursor

/-- `LossyUTF8Decoder::next` from decoder.rs: classify the lead byte (the
wildcard arm emits a replacement/`Unknown` unit and advances by one), take
the slice of declared width clamped to the buffer end, validate it with
`from_utf8`; on success emit its first character with the declared
classification and advance by the declared width, on failure emit a
replacement/`Unknown` unit and advance by one. -/
def LossyUTF8Decoder.next : LossyUTF8Decoder → Option ((Nat × CharType) × LossyUTF8Decoder)
  | ⟨bytes, cursor⟩ =>
    if h : cursor < bytes.length then
      match classifyLead bytes[cursor] with
      | none => some ((replacementChar, CharType.Unknown), ⟨bytes, cursor + 1⟩)
      | some info =>
        match from_utf8 (chunk bytes cursor info) with
        | some cs => some ((cs.headD 0, info), ⟨bytes, cursor + CharType.size info⟩)
        | none => some ((replacementChar, CharType.Unknown), ⟨bytes, cursor + 1⟩)
    else
      none

/-- State of `ByteAlignedDecoder`: the wrapped decoder state and the pending
filler count `to_fill`. -/
structure ByteAlignedDecoder (σ : Type) where
  decoder : σ
  to_fill : Nat
deriving DecidableEq

/-- `ByteAlignedDecoder::next` from decoder.rs, generic over the wrapped
decoder's step function `f` (the Rust code is generic over any
`Iterator<Item = (char, CharType)>`). -/
def ByteAlignedDecoder.next {σ : Type} (f : σ → Option ((Nat × CharType) × σ)) :
    ByteAlignedDecoder σ → Option (Nat × ByteAlignedDecoder σ)
  | ⟨decoder, to_fill⟩ =>
    if to_fill = 0 then
      match f decoder with
      | none => none
      | some ((c, info), d) => some (c, ⟨d, CharType.size info - 1⟩)
    else
      some (fillerChar, ⟨decoder, to_fill - 1⟩)

/-- Pull up to `fuel` units from a unit stream (models `Iterator::collect`
on a raw decoder; any fuel larger than the stream length collects it all). -/
def collectUnits {σ : Type} (f : σ → Option ((Nat × CharType) × σ)) :
    Nat → σ → List (Nat × CharType)
  | 0, _ => []
  | fuel + 1, s =>
    match f s with
    | none => []
    | some (u, s2) => u :: collectUnits f fuel s2

/-- Pull up to `fuel` characters from a byte-aligned adapter (models
`Iterator::collect` on `ByteAlignedDecoder`). -/
def collectAligned {σ : Type} (f : σ → Option ((Nat × CharType) × σ)) :
    Nat → ByteAlignedDecoder σ → List Nat
  | 0, _ => []
  | fuel + 1, s =>
    match ByteAlignedDecoder.next f s with
    | none => []
    | some (c, s2) => c :: collectAligned f fuel s2

/-- Pull up to `fuel` characters from a byte-aligned adapter and also return
the adapter state reached. -/
def runAligned {σ : Type} (f : σ → Option ((Nat × CharType) × σ)) :
    Nat → ByteAlignedDecoder σ → List Nat × ByteAlignedDecoder σ
  | 0, s => ([], s)
  | fuel + 1, s =>
    match ByteAlignedDecoder.next f s with
    | none => ([], s)
    | some (c, s2) =>
      let p := runAligned f fuel s2
      (c :: p.1, p.2)

/-- All units of the ASCII decoder constructed from buffer `B`
(`LossyASCIIDecoder::from(B).collect()`). -/
def asciiUnits (B : List Nat) : List (Nat × CharType) :=
  collectUnits LossyASCIIDecoder.next (B.length + 1) ⟨B, 0⟩

/-- All units of the UTF-8 decoder constructed from buffer `B`
(`LossyUTF8Decoder::from(B).collect()`). -/
def utf8Units (B : List Nat) : List (Nat × CharType) :=
  collectUnits LossyUTF8Decoder.next (B.length + 1) ⟨B, 0⟩

/-- The byte-aligned character sequence over the ASCII decoder
(`ByteAlignedDecoder::from(LossyASCIIDecoder::from(B)).collect()`). -/
def asciiAligned (B : List Nat) : List Nat :=
  collectAligned LossyASCIIDecoder.next (B.length + 1) ⟨⟨B, 0⟩, 0⟩

/-- The byte-aligned character sequence over the UTF-8 decoder
(`ByteAlignedDecoder::from(LossyUTF8Decoder::from(B)).collect()`). -/
def utf8Aligned (B : List Nat) : List Nat :=
  collectAligned LossyUTF8Decoder.next (B.length + 1) ⟨⟨B, 0⟩, 0⟩

/-- Advance a UTF-8 decoder by one pulled unit (identity at end of stream). -/
def utf8Step (d : LossyUTF8Decoder) : LossyUTF8Decoder :=
  match LossyUTF8Decoder.next d with
  | some (_, d2) => d2
  | none => d

/-- Advance a UTF-8 decoder by `n` pulled units. -/
def utf8Iter (d : LossyUTF8Decoder) : Nat → LossyUTF8Decoder
  | 0 => d
  | n + 1 => utf8Step (utf8Iter d n)

/-- The reference input bytes of the repository's tests:
`b"text, controls \n \r\n, space \t, unicode \xC3\xA4h \xC3\xA0 la
\xF0\x9F\x92\xA9, null \x00, invalid \xC0\xF8\xEE"`. -/
def testBytes : List Nat :=
  [0x74, 0x65, 0x78, 0x74, 0x2C, 0x20, 0x63, 0x6F, 0x6E, 0x74, 0x72, 0x6F,
   0x6C, 0x73, 0x20, 0x0A, 0x20, 0x0D, 0x0A, 0x2C, 0x20, 0x73, 0x70, 0x61,
   0x63, 0x65, 0x20, 0x09, 0x2C, 0x20, 0x75, 0x6E, 0x69, 0x63, 0x6F, 0x64,
   0x65, 0x20, 0xC3, 0xA4, 0x68, 0x20, 0xC3, 0xA0, 0x20, 0x6C, 0x61, 0x20,
   0xF0, 0x9F, 0x92, 0xA9, 0x2C, 0x20, 0x6E, 0x75, 0x6C, 0x6C, 0x20, 0x00,
   0x2C, 0x20, 0x69, 0x6E, 0x76, 0x61, 0x6C, 0x69, 0x64, 0x20, 0xC0, 0xF8,
   0xEE]

/-- The aligned output expected of the ASCII decoder on `testBytes`
(the string literal of `test_decoder_ascii`). -/
def expectedASCII : String :=
  "text, controls \n \r\n, space \t, unicode ��h �� la ����, null \x00, invalid ���"

/-- The aligned output expected of the UTF-8 decoder on `testBytes`
(the string literal of `test_decoder_utf8`). -/
def expectedUTF8 : String :=
  "text, controls \n \r\n, space \t, unicode ä•h à• la 💩•••, null \x00, invalid ���"

/-- Any classification produced by the lead-byte `match` is either `Ascii`
(for a 7-bit byte) or `Unicode w` with `w` between 2 and 4. -/
theorem classifyLead_spec {b : Nat} {info : CharType}
    (h : classifyLead b = some info) :
    (info = CharType.Ascii ∧ b ≤ 0x7F) ∨
      ∃ w, info = CharType.Unicode w ∧ 2 ≤ w ∧ w ≤ 4 := by
  unfold classifyLead at h
  split_ifs at h with h1 h2 h3 h4
  · exact Or.inl ⟨(Option.some.inj h).symm, h1⟩
  · exact Or.inr ⟨2, (Option.some.inj h).symm, by omega, by omega⟩
  · exact Or.inr ⟨3, (Option.some.inj h).symm, by omega, by omega⟩
  · exact Or.inr ⟨4, (Option.some.inj h).symm, by omega, by omega⟩

/-- Any classification produced by the lead-byte `match` has positive size. -/
theorem classifyLead_size_pos {b : Nat} {info : CharType}
    (h : classifyLead b = some info) : 1 ≤ CharType.size info := by
  rcases classifyLead_spec h with ⟨he, -⟩ | ⟨w, he, hw, -⟩
  · subst he; simp [CharType.size]
  · subst he; simp only [CharType.size]; omega

/-- When one UTF-8 decoding step succeeds on `b0 :: t`, the lead byte `b0`
is classified by the decoder's `match`, and the number of bytes consumed by
the step is exactly the classification's size. -/
theorem utf8DecodeOne_spec {b0 c : Nat} {t r : List Nat}
    (h : utf8DecodeOne (b0 :: t) = some (c, r)) :
    ∃ info, classifyLead b0 = some info ∧
      t.length + 1 = CharType.size info + r.length := by
  rcases t with _ | ⟨b1, _ | ⟨b2, _ | ⟨b3, rest⟩⟩⟩ <;>
      simp only [utf8DecodeOne] at h <;>
      split_ifs at h <;>
      simp only [Option.some.injEq, Prod.mk.injEq] at h <;>
      obtain ⟨-, h2'⟩ := h <;>
      subst h2' <;>
      first
        | exact ⟨CharType.Ascii,
            by unfold classifyLead; rw [if_pos (by omega)],
            by simp only [CharType.size, List.length_cons, List.length_nil]; try omega⟩
        | exact ⟨CharType.Unicode 2,
            by unfold classifyLead; rw [if_neg (by omega), if_pos (by omega)],
            by simp only [CharType.size, List.length_cons, List.length_nil]; try omega⟩
        | exact ⟨CharType.Unicode 3,
            by unfold classifyLead
               rw [if_neg (by omega), if_neg (by omega), if_pos (by omega)],
            by simp only [CharType.size, List.length_cons, List.length_nil]; try omega⟩
        | exact ⟨CharType.Unicode 4,
            by unfold classifyLead
               rw [if_neg (by omega), if_neg (by omega), if_neg (by omega), if_pos (by omega)],
            by simp only [CharType.size, List.length_cons, List.length_nil]; try omega⟩

/-- Unfolding lemma: a successful run of the validator on a non-empty list
factors into one decoding step followed by a run on the remainder. -/
theorem utf8DecodeAux_cons {fuel b0 : Nat} {t cs : List Nat}
    (h : utf8DecodeAux fuel (b0 :: t) = some cs) :
    ∃ c r cs2, utf8DecodeOne (b0 :: t) = some (c, r) ∧
      utf8DecodeAux (fuel - 1) r = some cs2 ∧ cs = c :: cs2 := by
  cases fuel with
  | zero => exact absurd h (by simp [utf8DecodeAux])
  | succ n =>
    cases hd : utf8DecodeOne (b0 :: t) with
    | none => simp [utf8DecodeAux, hd] at h
    | some p =>
      obtain ⟨c, r⟩ := p
      simp only [utf8DecodeAux, hd] at h
      cases ha : utf8DecodeAux n r with
      | none => rw [ha] at h; exact absurd h (by simp)
      | some cs2 =>
        rw [ha] at h
        simp only [Option.map_some', Option.some.injEq] at h
        exact ⟨c, r, cs2, rfl, by simpa using ha, h.symm⟩

/-- The validator accepts the empty byte list, yielding no characters. -/
theorem utf8DecodeAux_nil (fuel : Nat) : utf8DecodeAux fuel [] = some [] := by
  cases fuel <;> rfl

/-- If the validator succeeds with an empty character list, the input was empty. -/
theorem utf8DecodeAux_eq_nil {fuel : Nat} {l : List Nat}
    (h : utf8DecodeAux fuel l = some []) : l = [] := by
  cases l with
  | nil => rfl
  | cons b t =>
    obtain ⟨c, r, cs2, _, _, h3⟩ := utf8DecodeAux_cons h
    exact absurd h3 (by simp)

/-- Central safety lemma for the UTF-8 decoder's success path: if the lead
byte of a chunk is classified with size `N` and the chunk has at most `N`
bytes (a clamped slice), then validation succeeding forces the chunk to
have exactly `N` bytes and to decode to exactly one character. -/
theorem from_utf8_clamped {b0 : Nat} {t : List Nat} {info : CharType}
    {cs : List Nat} (hcl : classifyLead b0 = some info)
    (hlen : t.length + 1 ≤ CharType.size info)
    (h : from_utf8 (b0 :: t) = some cs) :
    t.length + 1 = CharType.size info ∧ ∃ c, cs = [c] := by
  unfold from_utf8 at h
  obtain ⟨c, r, cs2, h1, h2, h3⟩ := utf8DecodeAux_cons h
  obtain ⟨info2, hcl2, hlen2⟩ := utf8DecodeOne_spec h1
  rw [hcl] at hcl2
  injection hcl2 with he
  subst he
  have hr : r = [] := List.length_eq_zero.mp (by omega)
  subst hr
  rw [utf8DecodeAux_nil] at h2
  have hcs2 : cs2 = [] := (Option.some.inj h2).symm
  subst hcs2
  exact ⟨by omega, c, h3⟩

/-- With the cursor in bounds, the clamped slice starts with the byte at the
cursor. -/
theorem chunk_cons (bytes : List Nat) (cursor : Nat) (info : CharType)
    (h : cursor < bytes.length) (hsz : 1 ≤ CharType.size info) :
    chunk bytes cursor info =
      bytes[cursor] ::
        (bytes.drop (cursor + 1)).take
          (min bytes.length (cursor + CharType.size info) - (cursor + 1)) := by
  unfold chunk
  rw [List.drop_take, List.drop_eq_getElem_cons h]
  have hpos : min bytes.length (cursor + CharType.size info) - cursor
      = (min bytes.length (cursor + CharType.size info) - (cursor + 1)) + 1 := by
    omega
  rw [hpos, List.take_succ_cons]

/-- If the clamped slice at an in-bounds cursor passes validation, it has
exactly the declared width (so the declared width fits inside the buffer)
and decodes to exactly one character. -/
theorem chunk_valid_spec {bytes : List Nat} {cursor : Nat} {info : CharType}
    {cs : List Nat} (h : cursor < bytes.length)
    (hcl : classifyLead bytes[cursor] = some info)
    (hv : from_utf8 (chunk bytes cursor info) = some cs) :
    (chunk bytes cursor info).length = CharType.size info ∧
      cursor + CharType.size info ≤ bytes.length ∧ ∃ c, cs = [c] := by
  have hsz := classifyLead_size_pos hcl
  rw [chunk_cons bytes cursor info h hsz] at hv
  have hlen : ((bytes.drop (cursor + 1)).take
      (min bytes.length (cursor + CharType.size info) - (cursor + 1))).length
      = min bytes.length (cursor + CharType.size info) - (cursor + 1) := by
    simp only [List.length_take, List.length_drop]
    omega
  obtain ⟨heq, c, hc⟩ := from_utf8_clamped hcl (by rw [hlen]; omega) hv
  rw [hlen] at heq
  refine ⟨?_, by omega, c, hc⟩
  rw [chunk_cons bytes cursor info h hsz]
  simp only [List.length_cons, hlen]
  omega

/-- Past the end of the buffer the UTF-8 decoder's stream has ended. -/
theorem utf8_next_none {bytes : List Nat} {cursor : Nat}
    (h : bytes.length ≤ cursor) :
    LossyUTF8Decoder.next ⟨bytes, cursor⟩ = none := by
  simp only [LossyUTF8Decoder.next]
  rw [dif_neg (by omega)]

/-- Past the end of the buffer the ASCII decoder's stream has ended. -/
theorem ascii_next_none {bytes : List Nat} {cursor : Nat}
    (h : bytes.length ≤ cursor) :
    LossyASCIIDecoder.next ⟨bytes, cursor⟩ = none := by
  simp only [LossyASCIIDecoder.next]
  rw [dif_neg (by omega)]

/-- With the cursor in bounds, one UTF-8 decoding step emits a unit, keeps
the buffer, advances the cursor by exactly the emitted classification's
size, and stays inside the buffer. -/
theorem utf8_next_step {bytes : List Nat} {cursor : Nat}
    (h : cursor < bytes.length) :
    ∃ c info, LossyUTF8Decoder.next ⟨bytes, cursor⟩ =
        some ((c, info), ⟨bytes, cursor + CharType.size info⟩) ∧
      1 ≤ CharType.size info ∧ cursor + CharType.size info ≤ bytes.length := by
  cases hcl : classifyLead bytes[cursor] with
  | none =>
    refine ⟨replacementChar, CharType.Unknown, ?_, by simp [CharType.size], ?_⟩
    · simp only [LossyUTF8Decoder.next]
      rw [dif_pos h]
      simp [hcl, CharType.size]
    · simp only [CharType.size]
      omega
  | some info =>
    cases hv : from_utf8 (chunk bytes cursor info) with
    | none =>
      refine ⟨replacementChar, CharType.Unknown, ?_, by simp [CharType.size], ?_⟩
      · simp only [LossyUTF8Decoder.next]
        rw [dif_pos h]
        simp [hcl, hv, CharType.size]
      · simp only [CharType.size]
        omega
    | some cs =>
      obtain ⟨-, hle, -⟩ := chunk_valid_spec h hcl hv
      refine ⟨cs.headD 0, info, ?_, classifyLead_size_pos hcl, hle⟩
      simp only [LossyUTF8Decoder.next]
      rw [dif_pos h]
      simp [hcl, hv]

/-- With the cursor in bounds and a 7-bit byte there, the ASCII decoder
emits that byte with classification `Ascii` and advances by one. -/
theorem ascii_next_low {bytes : List Nat} {cursor : Nat}
    (h : cursor < bytes.length) (hb : bytes[cursor] ≤ 0x7F) :
    LossyASCIIDecoder.next ⟨bytes, cursor⟩ =
      some ((bytes[cursor], CharType.Ascii), ⟨bytes, cursor + 1⟩) := by
  simp only [LossyASCIIDecoder.next]
  rw [dif_pos h, if_pos hb]

/-- With the cursor in bounds and a non-7-bit byte there, the ASCII decoder
emits the replacement character with classification `Unknown` and advances
by one. -/
theorem ascii_next_high {bytes : List Nat} {cursor : Nat}
    (h : cursor < bytes.length) (hb : ¬bytes[cursor] ≤ 0x7F) :
    LossyASCIIDecoder.next ⟨bytes, cursor⟩ =
      some ((replacementChar, CharType.Unknown), ⟨bytes, cursor + 1⟩) := by
  simp only [LossyASCIIDecoder.next]
  rw [dif_pos h, if_neg hb]

/-- Every unit the UTF-8 decoder emits keeps the buffer and advances the
cursor by exactly the size of the emitted classification, staying inside
the buffer. -/
theorem utf8_next_measure {d d2 : LossyUTF8Decoder} {c : Nat} {info : CharType}
    (hn : LossyUTF8Decoder.next d = some ((c, info), d2)) :
    d2.bytes = d.bytes ∧ d2.cursor = d.cursor + CharType.size info ∧
      1 ≤ CharType.size info ∧ d2.cursor ≤ d.bytes.length ∧
      d.cursor < d.bytes.length := by
  obtain ⟨bytes, cursor⟩ := d
  by_cases h : cursor < bytes.length
  · obtain ⟨c2, info2, hstep, hsz, hle⟩ := utf8_next_step h
    rw [hstep] at hn
    simp only [Option.some.injEq, Prod.mk.injEq] at hn
    obtain ⟨⟨-, hinfo⟩, hd2⟩ := hn
    subst hinfo
    subst hd2
    exact ⟨rfl, rfl, hsz, hle, h⟩
  · rw [utf8_next_none (by omega)] at hn
    exact absurd hn (by simp)

/-- Every unit the ASCII decoder emits keeps the buffer, is classified
`Ascii` or `Unknown`, and advances the cursor by exactly the size of the
emitted classification (one byte), staying inside the buffer. -/
theorem ascii_next_measure {d d2 : LossyASCIIDecoder} {c : Nat} {info : CharType}
    (hn : LossyASCIIDecoder.next d = some ((c, info), d2)) :
    d2.bytes = d.bytes ∧ d2.cursor = d.cursor + CharType.size info ∧
      (info = CharType.Ascii ∨ info = CharType.Unknown) ∧
      d2.cursor ≤ d.bytes.length ∧ d.cursor < d.bytes.length := by
  obtain ⟨bytes, cursor⟩ := d
  by_cases h : cursor < bytes.length
  · by_cases hb : bytes[cursor] ≤ 0x7F
    · rw [ascii_next_low h hb] at hn
      simp only [Option.some.injEq, Prod.mk.injEq] at hn
      obtain ⟨⟨-, hinfo⟩, hd2⟩ := hn
      subst hinfo
      subst hd2
      exact ⟨rfl, rfl, Or.inl rfl, by simp [CharType.size]; omega, h⟩
    · rw [ascii_next_high h hb] at hn
      simp only [Option.some.injEq, Prod.mk.injEq] at hn
      obtain ⟨⟨-, hinfo⟩, hd2⟩ := hn
      subst hinfo
      subst hd2
      exact ⟨rfl, rfl, Or.inr rfl, by simp [CharType.size]; omega, h⟩
  · rw [ascii_next_none (by omega)] at hn
    exact absurd hn (by simp)

/-- Adapter collection step with no pending fillers and an ended wrapped
stream: the adapter's stream ends. -/
theorem collectAligned_zero_none {σ : Type} (f : σ → Option ((Nat × CharType) × σ))
    (s : σ) (n : Nat) (hf : f s = none) :
    collectAligned f (n + 1) ⟨s, 0⟩ = [] := by
  simp [collectAligned, ByteAlignedDecoder.next, hf]

/-- Adapter collection step with no pending fillers: pull one unit from the
wrapped decoder, emit its character and set up its fillers. -/
theorem collectAligned_zero_some {σ : Type} (f : σ → Option ((Nat × CharType) × σ))
    (s s2 : σ) (c : Nat) (info : CharType) (n : Nat)
    (hf : f s = some ((c, info), s2)) :
    collectAligned f (n + 1) ⟨s, 0⟩ =
      c :: collectAligned f n ⟨s2, CharType.size info - 1⟩ := by
  simp [collectAligned, ByteAlignedDecoder.next, hf]

/-- Adapter collection step with pending fillers: emit one filler glyph
without pulling from the wrapped decoder. -/
theorem collectAligned_succ_fill {σ : Type} (f : σ → Option ((Nat × CharType) × σ))
    (s : σ) (k n : Nat) :
    collectAligned f (n + 1) ⟨s, k + 1⟩ = fillerChar :: collectAligned f n ⟨s, k⟩ := by
  simp [collectAligned, ByteAlignedDecoder.next]

/-- Draining `k` pending fillers emits exactly `k` filler glyphs and leaves
the wrapped decoder untouched. -/
theorem collectAligned_drain {σ : Type} (f : σ → Option ((Nat × CharType) × σ))
    (k : Nat) : ∀ (fuel : Nat) (s : σ),
    collectAligned f (fuel + k) ⟨s, k⟩ =
      List.replicate k fillerChar ++ collectAligned f fuel ⟨s, 0⟩ := by
  induction k with
  | zero => intro fuel s; simp
  | succ n ih =>
    intro fuel s
    have h1 : fuel + (n + 1) = (fuel + n) + 1 := by omega
    rw [h1, collectAligned_succ_fill, ih fuel s]
    simp [List.replicate_succ]

/-- Generic length argument for the byte-aligned adapter: if the wrapped
stream carries a measure that each emitted unit decreases by exactly its
classification's size (and that is zero exactly at end of stream), then
collecting the adapter with enough fuel yields exactly `measure` characters. -/
theorem collectAligned_length {σ : Type} (f : σ → Option ((Nat × CharType) × σ))
    (m : σ → Nat)
    (hsome : ∀ s c info s2, f s = some ((c, info), s2) →
      1 ≤ CharType.size info ∧ CharType.size info + m s2 = m s)
    (hnone : ∀ s, f s = none → m s = 0) :
    ∀ (fuel : Nat), ∀ (s : σ), m s < fuel →
      (collectAligned f fuel ⟨s, 0⟩).length = m s := by
  intro fuel
  induction fuel using Nat.strong_induction_on with
  | _ fuel ih =>
    intro s hm
    cases fuel with
    | zero => omega
    | succ n =>
      cases hf : f s with
      | none =>
        rw [collectAligned_zero_none f s n hf]
        simp [hnone s hf]
      | some p =>
        obtain ⟨⟨c, info⟩, s2⟩ := p
        obtain ⟨hsz, hmeq⟩ := hsome s c info s2 hf
        rw [collectAligned_zero_some f s s2 c info n hf]
        have hn : n = (n - (CharType.size info - 1)) + (CharType.size info - 1) := by
          omega
        rw [hn, collectAligned_drain f (CharType.size info - 1)
          (n - (CharType.size info - 1)) s2]
        have ih2 : (collectAligned f (n - (CharType.size info - 1)) ⟨s2, 0⟩).length
            = m s2 := by
          apply ih
          · omega
          · omega
        simp only [List.length_cons, List.length_append, List.length_replicate, ih2]
        omega

/-- The collected byte-aligned output over the ASCII decoder has exactly one
character per input byte. -/
theorem asciiAligned_length (B : List Nat) : (asciiAligned B).length = B.length := by
  have h := collectAligned_length LossyASCIIDecoder.next
    (fun d => d.bytes.length - d.cursor)
    (by
      intro s c info s2 hf
      obtain ⟨hb, hc, hcls, hle, hlt⟩ := ascii_next_measure hf
      refine ⟨by rcases hcls with h | h <;> subst h <;> simp [CharType.size], ?_⟩
      show CharType.size info + (s2.bytes.length - s2.cursor) = s.bytes.length - s.cursor
      rw [hb, hc]
      rw [hc] at hle
      omega)
    (by
      intro s hf
      obtain ⟨bytes, cursor⟩ := s
      by_cases h : cursor < bytes.length
      · by_cases hb : bytes[cursor] ≤ 0x7F
        · rw [ascii_next_low h hb] at hf
          exact absurd hf (by simp)
        · rw [ascii_next_high h hb] at hf
          exact absurd hf (by simp)
      · show bytes.length - cursor = 0
        omega)
    (B.length + 1) ⟨B, 0⟩ (by show B.length - 0 < B.length + 1; omega)
  simpa [asciiAligned] using h

/-- The collected byte-aligned output over the UTF-8 decoder has exactly one
character per input byte. -/
theorem utf8Aligned_length (B : List Nat) : (utf8Aligned B).length = B.length := by
  have h := collectAligned_length LossyUTF8Decoder.next
    (fun d => d.bytes.length - d.cursor)
    (by
      intro s c info s2 hf
      obtain ⟨hb, hc, hsz, hle, hlt⟩ := utf8_next_measure hf
      refine ⟨hsz, ?_⟩
      show CharType.size info + (s2.bytes.length - s2.cursor) = s.bytes.length - s.cursor
      rw [hb, hc]
      rw [hc] at hle
      omega)
    (by
      intro s hf
      obtain ⟨bytes, cursor⟩ := s
      by_cases h : cursor < bytes.length
      · obtain ⟨c, info, hstep, -, -⟩ := utf8_next_step h
        rw [hstep] at hf
        exact absurd hf (by simp)
      · show bytes.length - cursor = 0
        omega)
    (B.length + 1) ⟨B, 0⟩ (by show B.length - 0 < B.length + 1; omega)
  simpa [utf8Aligned] using h

/-- Running the adapter for `k` steps on `k` pending fillers emits exactly
`k` filler glyphs and ends with no pending fillers, not pulling from the
wrapped decoder. -/
theorem runAligned_fill {σ : Type} (f : σ → Option ((Nat × CharType) × σ))
    (k : Nat) (s : σ) :
    runAligned f k ⟨s, k⟩ = (List.replicate k fillerChar, ⟨s, 0⟩) := by
  induction k with
  | zero => rfl
  | succ n ih =>
    simp [runAligned, ByteAlignedDecoder.next, ih, List.replicate_succ]

/-- Pulling one unit of size `k + 1` and running the adapter for the unit's
whole span emits the unit's character and then `k` filler glyphs, ending
ready to pull the next unit. -/
theorem runAligned_unit {σ : Type} (f : σ → Option ((Nat × CharType) × σ))
    (d d2 : σ) (c : Nat) (info : CharType) (k : Nat)
    (hf : f d = some ((c, info), d2)) (hk : CharType.size info = k + 1) :
    runAligned f (k + 1) ⟨d, 0⟩ = (c :: List.replicate k fillerChar, ⟨d2, 0⟩) := by
  simp [runAligned, ByteAlignedDecoder.next, hf, hk, runAligned_fill]

/-- Collecting units of an ended stream yields nothing. -/
theorem collectUnits_none {σ : Type} (f : σ → Option ((Nat × CharType) × σ))
    (s : σ) (n : Nat) (hf : f s = none) : collectUnits f (n + 1) s = [] := by
  simp [collectUnits, hf]

/-- Collecting units pulls one unit and recurses on the rest of the stream. -/
theorem collectUnits_some {σ : Type} (f : σ → Option ((Nat × CharType) × σ))
    (s s2 : σ) (u : Nat × CharType) (n : Nat) (hf : f s = some (u, s2)) :
    collectUnits f (n + 1) s = u :: collectUnits f n s2 := by
  simp [collectUnits, hf]

/-- A byte list that validates to exactly one character decodes in a single
step that consumes the whole list. -/
theorem from_utf8_single_decodeOne {enc : List Nat} {c : Nat}
    (h : from_utf8 enc = some [c]) :
    ∃ b0 t, enc = b0 :: t ∧ utf8DecodeOne (b0 :: t) = some (c, []) := by
  cases enc with
  | nil => simp [from_utf8, utf8DecodeAux] at h
  | cons b0 t =>
    unfold from_utf8 at h
    obtain ⟨c2, r, cs2, h1, h2, h3⟩ := utf8DecodeAux_cons h
    have hc2 : c = c2 ∧ [] = cs2 := by
      simpa using h3
    obtain ⟨hc2, hcs2⟩ := hc2
    subst hc2
    rw [← hcs2] at h2
    have hr := utf8DecodeAux_eq_nil h2
    subst hr
    exact ⟨b0, t, rfl, h1⟩

/-- When the bytes from the cursor start with `enc` and `enc` fits in the
declared width, the clamped slice is exactly `enc`. -/
theorem chunk_at_append {bytes enc rest : List Nat} {cursor : Nat}
    {info : CharType} (hat : bytes.drop cursor = enc ++ rest)
    (hW : CharType.size info = enc.length)
    (hle : cursor + enc.length ≤ bytes.length) :
    chunk bytes cursor info = enc := by
  unfold chunk
  rw [List.drop_take, hat, hW]
  have hmin : min bytes.length (cursor + enc.length) - cursor = enc.length := by
    omega
  rw [hmin]
  exact List.take_left' rfl

/-- A single 7-bit byte is valid UTF-8 and decodes to itself. -/
theorem from_utf8_singleton {b : Nat} (hb : b ≤ 0x7F) :
    from_utf8 [b] = some [b] := by
  simp [from_utf8, utf8DecodeAux, utf8DecodeOne, hb]

/-- For a width-1 classification the clamped slice is the byte at the cursor. -/
theorem chunk_size_one (bytes : List Nat) (cursor : Nat) (info : CharType)
    (h : cursor < bytes.length) (hsz : CharType.size info = 1) :
    chunk bytes cursor info = [bytes[cursor]] := by
  rw [chunk_cons bytes cursor info h (by omega)]
  have hmin : min bytes.length (cursor + CharType.size info) - (cursor + 1) = 0 := by
    omega
  rw [hmin]
  simp

/-- C2: if a validly-encoded multi-byte UTF-8 character (encoding `enc`,
character `c`) begins at the cursor, the UTF-8 decoder emits exactly `c`
with classification `Unicode enc.length` — the true encoded byte length —
and the cursor advances by exactly that width. -/
theorem claim_unicode_roundtrip (bytes enc rest : List Nat) (cursor c : Nat)
    (henc : from_utf8 enc = some [c]) (hmb : 2 ≤ enc.length)
    (hat : bytes.drop cursor = enc ++ rest) :
    LossyUTF8Decoder.next ⟨bytes, cursor⟩ =
      some ((c, CharType.Unicode enc.length), ⟨bytes, cursor + enc.length⟩) := by
  obtain ⟨b0, t, henc2, hone⟩ := from_utf8_single_decodeOne henc
  subst henc2
  obtain ⟨info, hcl, hlen⟩ := utf8DecodeOne_spec hone
  have hsz : CharType.size info = (b0 :: t).length := by
    simp only [List.length_nil] at hlen
    simp only [List.length_cons]
    omega
  have hinfo : info = CharType.Unicode ((b0 :: t).length) := by
    rcases classifyLead_spec hcl with ⟨he, -⟩ | ⟨w, he, hw2, hw4⟩
    · subst he
      simp only [CharType.size] at hsz
      simp only [List.length_cons] at hmb hsz
      omega
    · subst he
      simp only [CharType.size] at hsz
      rw [hsz]
  subst hinfo
  have hlen_drop : bytes.length - cursor = (b0 :: t).length + rest.length := by
    have h2 := congrArg List.length hat
    simp only [List.length_drop, List.length_append, List.length_cons] at h2
    simp only [List.length_cons]
    omega
  have hcur : cursor < bytes.length := by
    simp only [List.length_cons] at hlen_drop
    omega
  have hle : cursor + (b0 :: t).length ≤ bytes.length := by
    simp only [List.length_cons] at hlen_drop ⊢
    omega
  have hchunk : chunk bytes cursor (CharType.Unicode ((b0 :: t).length)) = b0 :: t :=
    chunk_at_append hat (by simp [CharType.size]) hle
  have hb0 : bytes[cursor] = b0 := by
    have h2 := List.drop_eq_getElem_cons hcur
    rw [hat] at h2
    simp only [List.cons_append] at h2
    exact (List.cons.injEq _ _ _ _).mp h2.symm |>.1
  simp only [LossyUTF8Decoder.next]
  rw [dif_pos hcur, hb0]
  simp only [List.length_cons] at hchunk
  simp [hcl, hchunk, henc, CharType.size]

/-- Concrete instance of the Unicode round-trip: the 2-byte character U+00E4
at offset 1 of a 4-byte buffer. -/
theorem claim_unicode_roundtrip_check :
    LossyUTF8Decoder.next ⟨[0x41, 0xC3, 0xA4, 0x42], 1⟩ =
      some ((0xE4, CharType.Unicode 2), ⟨[0x41, 0xC3, 0xA4, 0x42], 3⟩) := by
  have h := claim_unicode_roundtrip [0x41, 0xC3, 0xA4, 0x42] [0xC3, 0xA4] [0x42] 1 0xE4
    (by decide) (by decide) (by decide)
  simpa using h

/-- C6: at any in-bounds cursor holding a 7-bit byte, both decoders emit the
character with that exact code point, classification `Ascii`, and advance
by one byte. -/
theorem claim_ascii_fidelity (bytes : List Nat) (cursor : Nat)
    (h : cursor < bytes.length) (hb : bytes[cursor] ≤ 0x7F) :
    LossyASCIIDecoder.next ⟨bytes, cursor⟩ =
        some ((bytes[cursor], CharType.Ascii), ⟨bytes, cursor + 1⟩) ∧
      LossyUTF8Decoder.next ⟨bytes, cursor⟩ =
        some ((bytes[cursor], CharType.Ascii), ⟨bytes, cursor + 1⟩) := by
  refine ⟨ascii_next_low h hb, ?_⟩
  have hcl : classifyLead bytes[cursor] = some CharType.Ascii := by
    unfold classifyLead
    rw [if_pos hb]
  have hchunk : chunk bytes cursor CharType.Ascii = [bytes[cursor]] :=
    chunk_size_one bytes cursor CharType.Ascii h rfl
  simp only [LossyUTF8Decoder.next]
  rw [dif_pos h]
  simp [hcl, hchunk, from_utf8_singleton hb, CharType.size]

/-- Concrete instance of ASCII fidelity: byte 0x48 at offset 0. -/
theorem claim_ascii_fidelity_check :
    LossyASCIIDecoder.next ⟨[0x48], 0⟩ = some ((0x48, CharType.Ascii), ⟨[0x48], 1⟩) ∧
      LossyUTF8Decoder.next ⟨[0x48], 0⟩ = some ((0x48, CharType.Ascii), ⟨[0x48], 1⟩) := by
  have h := claim_ascii_fidelity [0x48] 0 (by decide) (by decide)
  simpa using h

/-- Wildcard arm of the UTF-8 decoder: stray continuation or invalid lead
byte yields a replacement/`Unknown` unit and a one-byte advance. -/
theorem utf8_next_wildcard {bytes : List Nat} {cursor : Nat}
    (h : cursor < bytes.length) (hcl : classifyLead bytes[cursor] = none) :
    LossyUTF8Decoder.next ⟨bytes, cursor⟩ =
      some ((replacementChar, CharType.Unknown), ⟨bytes, cursor + 1⟩) := by
  simp only [LossyUTF8Decoder.next]
  rw [dif_pos h]
  simp [hcl]

/-- Failed validation of the clamped slice yields a replacement/`Unknown`
unit and a one-byte advance. -/
theorem utf8_next_invalid {bytes : List Nat} {cursor : Nat} {info : CharType}
    (h : cursor < bytes.length) (hcl : classifyLead bytes[cursor] = some info)
    (hv : from_utf8 (chunk bytes cursor info) = none) :
    LossyUTF8Decoder.next ⟨bytes, cursor⟩ =
      some ((replacementChar, CharType.Unknown), ⟨bytes, cursor + 1⟩) := by
  simp only [LossyUTF8Decoder.next]
  rw [dif_pos h]
  simp [hcl, hv]

/-- Successful validation of the clamped slice emits its first character
with the declared classification and advances by the declared width. -/
theorem utf8_next_valid {bytes : List Nat} {cursor : Nat} {info : CharType}
    {cs : List Nat} (h : cursor < bytes.length)
    (hcl : classifyLead bytes[cursor] = some info)
    (hv : from_utf8 (chunk bytes cursor info) = some cs) :
    LossyUTF8Decoder.next ⟨bytes, cursor⟩ =
      some ((cs.headD 0, info), ⟨bytes, cursor + CharType.size info⟩) := by
  simp only [LossyUTF8Decoder.next]
  rw [dif_pos h]
  simp [hcl, hv]

/-- Every classification the UTF-8 decoder emits is `Unknown`, `Ascii`, or
`Unicode w` with `w` between 2 and 4. -/
theorem utf8_next_info {d d2 : LossyUTF8Decoder} {c : Nat} {info : CharType}
    (hn : LossyUTF8Decoder.next d = some ((c, info), d2)) :
    info = CharType.Unknown ∨ info = CharType.Ascii ∨
      ∃ w, info = CharType.Unicode w ∧ 2 ≤ w ∧ w ≤ 4 := by
  obtain ⟨bytes, cursor⟩ := d
  by_cases h : cursor < bytes.length
  · cases hcl : classifyLead bytes[cursor] with
    | none =>
      rw [utf8_next_wildcard h hcl] at hn
      simp only [Option.some.injEq, Prod.mk.injEq] at hn
      exact Or.inl hn.1.2.symm
    | some info2 =>
      cases hv : from_utf8 (chunk bytes cursor info2) with
      | none =>
        rw [utf8_next_invalid h hcl hv] at hn
        simp only [Option.some.injEq, Prod.mk.injEq] at hn
        exact Or.inl hn.1.2.symm
      | some cs =>
        rw [utf8_next_valid h hcl hv] at hn
        simp only [Option.some.injEq, Prod.mk.injEq] at hn
        obtain ⟨⟨-, hinfo⟩, -⟩ := hn
        subst hinfo
        rcases classifyLead_spec hcl with ⟨he, -⟩ | ⟨w, he, hw2, hw4⟩
        · exact Or.inr (Or.inl he)
        · exact Or.inr (Or.inr ⟨w, he, hw2, hw4⟩)
  · rw [utf8_next_none (by omega)] at hn
    exact absurd hn (by simp)

/-- C1: for every byte buffer and both raw decoder variants, collecting the
alignment adapter's output over a decoder constructed from the buffer
yields a character sequence whose length equals the buffer's length. -/
theorem claim_length_preservation (B : List Nat) :
    (asciiAligned B).length = B.length ∧ (utf8Aligned B).length = B.length :=
  ⟨asciiAligned_length B, utf8Aligned_length B⟩

/-- C9: whenever the clamped slice at the cursor passes UTF-8 validation in
the UTF-8 decoder, that slice decodes to exactly one character (the first
`chars.next()` yields a character and the second yields none), so the
success path's integrity assertions hold for every input buffer. -/
theorem claim_success_single_char (bytes : List Nat) (cursor : Nat)
    (info : CharType) (cs : List Nat) (h : cursor < bytes.length)
    (hcl : classifyLead bytes[cursor] = some info)
    (hv : from_utf8 (chunk bytes cursor info) = some cs) :
    ∃ c, cs = [c] :=
  (chunk_valid_spec h hcl hv).2.2

/-- Concrete instance of the single-character invariant: the valid 2-byte
slice at offset 0 of `[0xC3, 0xA4]`. -/
theorem claim_success_single_char_check : ∃ c, ([0xE4] : List Nat) = [c] :=
  claim_success_single_char [0xC3, 0xA4] 0 (CharType.Unicode 2) [0xE4]
    (by decide) (by decide) (by decide)

/-- C7: every decoded unit consumes exactly the width of its classification:
both decoders keep the buffer and advance the cursor by exactly
`CharType.size` of the emitted classification, which is 1 for `Ascii`, `w`
for `Unicode w`, and always exactly 1 for `Unknown`. -/
theorem claim_width_consumed :
    (∀ (d d2 : LossyUTF8Decoder) (c : Nat) (info : CharType),
        LossyUTF8Decoder.next d = some ((c, info), d2) →
          d2.bytes = d.bytes ∧ d2.cursor = d.cursor + CharType.size info) ∧
      (∀ (d d2 : LossyASCIIDecoder) (c : Nat) (info : CharType),
        LossyASCIIDecoder.next d = some ((c, info), d2) →
          d2.bytes = d.bytes ∧ d2.cursor = d.cursor + CharType.size info) ∧
      CharType.size CharType.Ascii = 1 ∧ CharType.size CharType.Unknown = 1 ∧
      ∀ w, CharType.size (CharType.Unicode w) = w := by
  refine ⟨?_, ?_, rfl, rfl, fun w => rfl⟩
  · intro d d2 c info hn
    obtain ⟨hb, hc, -, -, -⟩ := utf8_next_measure hn
    exact ⟨hb, hc⟩
  · intro d d2 c info hn
    obtain ⟨hb, hc, -, -, -⟩ := ascii_next_measure hn
    exact ⟨hb, hc⟩

/-- Concrete instance of width-equals-consumption: a 2-byte unit moves the
cursor from 0 to 2. -/
theorem claim_width_consumed_check :
    (⟨[0xC3, 0xA4], 2⟩ : LossyUTF8Decoder).bytes =
        (⟨[0xC3, 0xA4], 0⟩ : LossyUTF8Decoder).bytes ∧
      (⟨[0xC3, 0xA4], 2⟩ : LossyUTF8Decoder).cursor =
        (⟨[0xC3, 0xA4], 0⟩ : LossyUTF8Decoder).cursor +
          CharType.size (CharType.Unicode 2) :=
  claim_width_consumed.1 ⟨[0xC3, 0xA4], 0⟩ ⟨[0xC3, 0xA4], 2⟩ 0xE4
    (CharType.Unicode 2) (by decide)

/-- C10: the UTF-8 decoder only ever emits `Unicode w` with `w` between 2
and 4 (never 0 or 1); every classification emitted by either decoder has
size at least 1, so the adapter's pending-filler computation `size - 1`
never underflows. -/
theorem claim_unicode_width_bounds :
    (∀ (d d2 : LossyUTF8Decoder) (c w : Nat),
        LossyUTF8Decoder.next d = some ((c, CharType.Unicode w), d2) →
          2 ≤ w ∧ w ≤ 4) ∧
      (∀ (d d2 : LossyUTF8Decoder) (c : Nat) (info : CharType),
        LossyUTF8Decoder.next d = some ((c, info), d2) →
          1 ≤ CharType.size info ∧ (CharType.size info - 1) + 1 = CharType.size info) ∧
      (∀ (d d2 : LossyASCIIDecoder) (c : Nat) (info : CharType),
        LossyASCIIDecoder.next d = some ((c, info), d2) →
          (info = CharType.Ascii ∨ info = CharType.Unknown) ∧
            1 ≤ CharType.size info) := by
  refine ⟨?_, ?_, ?_⟩
  · intro d d2 c w hn
    rcases utf8_next_info hn with h | h | ⟨w2, h, hw2, hw4⟩
    · exact absurd h (by simp)
    · exact absurd h (by simp)
    · injection h with h
      omega
  · intro d d2 c info hn
    obtain ⟨-, -, hsz, -, -⟩ := utf8_next_measure hn
    exact ⟨hsz, by omega⟩
  · intro d d2 c info hn
    obtain ⟨-, -, hcls, -, -⟩ := ascii_next_measure hn
    refine ⟨hcls, ?_⟩
    rcases hcls with h | h <;> subst h <;> simp [CharType.size]

/-- Concrete instance of the width bounds: the emitted `Unicode 2` unit. -/
theorem claim_unicode_width_bounds_check : 2 ≤ 2 ∧ 2 ≤ 4 :=
  claim_unicode_width_bounds.1 ⟨[0xC3, 0xA4], 0⟩ ⟨[0xC3, 0xA4], 2⟩ 0xE4 2
    (by decide)

/-- C4: for every unit of width `W ≥ 1` pulled from any wrapped decoder, the
adapter emits exactly one real (or replacement) character followed by
exactly `W - 1` filler glyphs, ending ready to pull the next unit; a 1-byte
unit yields one character and zero fillers, and the filler glyph is never
the replacement character. -/
theorem claim_alignment_filler_shape {σ : Type}
    (f : σ → Option ((Nat × CharType) × σ)) (d d2 : σ) (c : Nat)
    (info : CharType) (hf : f d = some ((c, info), d2))
    (hsz : 1 ≤ CharType.size info) :
    runAligned f (CharType.size info) ⟨d, 0⟩ =
        (c :: List.replicate (CharType.size info - 1) fillerChar, ⟨d2, 0⟩) ∧
      fillerChar ≠ replacementChar := by
  constructor
  · obtain ⟨k, hk⟩ : ∃ k, CharType.size info = k + 1 :=
      ⟨CharType.size info - 1, by omega⟩
    rw [hk]
    simp only [Nat.add_sub_cancel]
    exact runAligned_unit f d d2 c info k hf hk
  · decide

/-- Concrete instance of the filler shape: a 2-byte unit gives one real
character and one filler. -/
theorem claim_alignment_filler_shape_check :
    runAligned LossyUTF8Decoder.next 2 ⟨⟨[0xC3, 0xA4], 0⟩, 0⟩ =
        ([0xE4, fillerChar], ⟨⟨[0xC3, 0xA4], 2⟩, 0⟩) ∧
      fillerChar ≠ replacementChar := by
  have h := claim_alignment_filler_shape LossyUTF8Decoder.next
    ⟨[0xC3, 0xA4], 0⟩ ⟨[0xC3, 0xA4], 2⟩ 0xE4 (CharType.Unicode 2)
    (by decide) (by decide)
  simpa [CharType.size] using h

/-- Collecting the ASCII decoder from any cursor maps each remaining byte to
its unit, in order. -/
theorem asciiUnits_map (bytes : List Nat) :
    ∀ (fuel cursor : Nat), bytes.length - cursor < fuel →
      collectUnits LossyASCIIDecoder.next fuel ⟨bytes, cursor⟩ =
        (bytes.drop cursor).map
          (fun b => if b ≤ 0x7F then (b, CharType.Ascii)
            else (replacementChar, CharType.Unknown)) := by
  intro fuel
  induction fuel with
  | zero => intro cursor h; omega
  | succ n ih =>
    intro cursor h
    by_cases hc : cursor < bytes.length
    · rw [List.drop_eq_getElem_cons hc, List.map_cons]
      by_cases hb : bytes[cursor] ≤ 0x7F
      · rw [collectUnits_some _ _ _ _ _ (ascii_next_low hc hb),
          ih (cursor + 1) (by omega), if_pos hb]
      · rw [collectUnits_some _ _ _ _ _ (ascii_next_high hc hb),
          ih (cursor + 1) (by omega), if_neg hb]
    · rw [List.drop_eq_nil_of_le (by omega), List.map_nil]
      exact collectUnits_none _ _ _ (ascii_next_none (by omega))

/-- C5: the ASCII decoder produces exactly one unit per input byte, in
order, never skipping or merging bytes; every byte in `0x80..=0xFF` (indeed
every non-7-bit byte) yields the replacement character with classification
`Unknown`, consuming exactly one byte. -/
theorem claim_ascii_per_byte (B : List Nat) :
    asciiUnits B =
        B.map (fun b => if b ≤ 0x7F then (b, CharType.Ascii)
          else (replacementChar, CharType.Unknown)) ∧
      ∀ (cursor : Nat) (hcur : cursor < B.length), 0x80 ≤ B[cursor] →
        LossyASCIIDecoder.next ⟨B, cursor⟩ =
          some ((replacementChar, CharType.Unknown), ⟨B, cursor + 1⟩) := by
  constructor
  · have h := asciiUnits_map B (B.length + 1) 0 (by omega)
    simpa [asciiUnits] using h
  · intro cursor hcur hb
    exact ascii_next_high hcur (by omega)

/-- Concrete instance of the per-byte ASCII contract on `[0x41, 0x9C]`. -/
theorem claim_ascii_per_byte_check :
    asciiUnits [0x41, 0x9C] =
        [(0x41, CharType.Ascii), (replacementChar, CharType.Unknown)] ∧
      LossyASCIIDecoder.next ⟨[0x41, 0x9C], 1⟩ =
        some ((replacementChar, CharType.Unknown), ⟨[0x41, 0x9C], 2⟩) := by
  have h := claim_ascii_per_byte [0x41, 0x9C]
  exact ⟨h.1.trans (by decide), h.2 1 (by decide) (by decide)⟩

/-- A run of continuation bytes reaching the end of the buffer decodes to
one replacement/`Unknown` unit per byte. -/
theorem utf8_cont_run (bytes : List Nat) :
    ∀ (fuel cursor : Nat), bytes.length - cursor ≤ fuel →
      (∀ i (hi : i < bytes.length), cursor ≤ i →
        0x80 ≤ bytes[i] ∧ bytes[i] ≤ 0xBF) →
      collectUnits LossyUTF8Decoder.next fuel ⟨bytes, cursor⟩ =
        List.replicate (bytes.length - cursor)
          (replacementChar, CharType.Unknown) := by
  intro fuel
  induction fuel with
  | zero =>
    intro cursor h hcont
    have h0 : bytes.length - cursor = 0 := by omega
    rw [h0]
    rfl
  | succ n ih =>
    intro cursor h hcont
    by_cases hc : cursor < bytes.length
    · have hb := hcont cursor hc (Nat.le_refl cursor)
      have hcl : classifyLead bytes[cursor] = none := by
        unfold classifyLead
        rw [if_neg (by omega), if_neg (by omega), if_neg (by omega),
          if_neg (by omega)]
      rw [collectUnits_some _ _ _ _ _ (utf8_next_wildcard hc hcl),
        ih (cursor + 1) (by omega) (fun i hi hle => hcont i hi (by omega))]
      have h1 : bytes.length - cursor = (bytes.length - (cursor + 1)) + 1 := by
        omega
      rw [h1, List.replicate_succ]
    · have h0 : bytes.length - cursor = 0 := by omega
      rw [h0, collectUnits_none _ _ _ (utf8_next_none (by omega))]
      rfl

/-- Validation of the clamped slice fails whenever the declared width
exceeds the bytes remaining in the buffer. -/
theorem chunk_truncated_invalid {bytes : List Nat} {cursor : Nat}
    {info : CharType} (h : cursor < bytes.length)
    (hcl : classifyLead bytes[cursor] = some info)
    (hshort : bytes.length - cursor < CharType.size info) :
    from_utf8 (chunk bytes cursor info) = none := by
  cases hv : from_utf8 (chunk bytes cursor info) with
  | none => rfl
  | some cs =>
    obtain ⟨-, hle, -⟩ := chunk_valid_spec h hcl hv
    omega

/-- C3 (amended): when a lead byte declaring width `N` sits at a position
with fewer than `N` bytes remaining and every later byte is a continuation
byte (`0x80..0xBF`), validation of the clamped slice fails, the UTF-8
decoder yields one replacement/`Unknown` unit per remaining byte, and each
unit advances the cursor by exactly one byte, never past the buffer end. -/
theorem claim_truncation_resync (bytes : List Nat) (cursor N : Nat)
    (h : cursor < bytes.length)
    (hcl : classifyLead bytes[cursor] = some (CharType.Unicode N))
    (hshort : bytes.length - cursor < N)
    (hcont : ∀ i (hi : i < bytes.length), cursor < i →
      0x80 ≤ bytes[i] ∧ bytes[i] ≤ 0xBF) :
    from_utf8 (chunk bytes cursor (CharType.Unicode N)) = none ∧
      collectUnits LossyUTF8Decoder.next (bytes.length - cursor)
          ⟨bytes, cursor⟩ =
        List.replicate (bytes.length - cursor)
          (replacementChar, CharType.Unknown) ∧
      ∀ i, i ≤ bytes.length - cursor →
        utf8Iter ⟨bytes, cursor⟩ i = ⟨bytes, cursor + i⟩ ∧
          cursor + i ≤ bytes.length := by
  have hfail : from_utf8 (chunk bytes cursor (CharType.Unicode N)) = none :=
    chunk_truncated_invalid h hcl (by simpa [CharType.size] using hshort)
  refine ⟨hfail, ?_, ?_⟩
  · have h1 : bytes.length - cursor = (bytes.length - (cursor + 1)) + 1 := by
      omega
    rw [h1, collectUnits_some _ _ _ _ _ (utf8_next_invalid h hcl hfail),
      utf8_cont_run bytes (bytes.length - (cursor + 1)) (cursor + 1)
        (by omega) (fun i hi hle => hcont i hi (by omega)),
      List.replicate_succ]
  · intro i
    induction i with
    | zero => exact fun _ => ⟨rfl, by omega⟩
    | succ j ihj =>
      intro hij
      obtain ⟨hiter, hb⟩ := ihj (by omega)
      have hcj : cursor + j < bytes.length := by omega
      have hstep : utf8Step ⟨bytes, cursor + j⟩ = ⟨bytes, cursor + j + 1⟩ := by
        rcases Nat.eq_zero_or_pos j with hj | hj
        · subst hj
          simp only [Nat.add_zero]
          simp [utf8Step, utf8_next_invalid h hcl hfail]
        · have hcb := hcont (cursor + j) hcj (by omega)
          have hcl2 : classifyLead bytes[cursor + j] = none := by
            unfold classifyLead
            rw [if_neg (by omega), if_neg (by omega), if_neg (by omega),
              if_neg (by omega)]
          simp [utf8Step, utf8_next_wildcard hcj hcl2]
      refine ⟨?_, by omega⟩
      simp only [utf8Iter]
      rw [hiter, hstep]
      rfl

/-- C3 as frozen is falsified by the buffer `[0xE0, 0x41]`: the lead byte
0xE0 declares width 3 with only 2 bytes remaining, yet the decoder's units
are not all `Unknown` — the second unit is an `Ascii` unit for 0x41. -/
theorem claim_truncation_counterexample :
    classifyLead 0xE0 = some (CharType.Unicode 3) ∧
      ([0xE0, 0x41] : List Nat).length < 3 ∧
      collectUnits LossyUTF8Decoder.next 2 ⟨[0xE0, 0x41], 0⟩ =
        [(replacementChar, CharType.Unknown), (0x41, CharType.Ascii)] ∧
      collectUnits LossyUTF8Decoder.next 2 ⟨[0xE0, 0x41], 0⟩ ≠
        List.replicate 2 (replacementChar, CharType.Unknown) := by
  decide

/-- Concrete instance of the amended truncation behaviour on `[0xE0, 0x80]`. -/
theorem claim_truncation_resync_check :
    from_utf8 (chunk [0xE0, 0x80] 0 (CharType.Unicode 3)) = none ∧
      collectUnits LossyUTF8Decoder.next 2 ⟨[0xE0, 0x80], 0⟩ =
        List.replicate 2 (replacementChar, CharType.Unknown) ∧
      utf8Iter ⟨[0xE0, 0x80], 0⟩ 2 = ⟨[0xE0, 0x80], 2⟩ ∧ 0 + 2 ≤ 2 := by
  have h := claim_truncation_resync [0xE0, 0x80] 0 3 (by decide) (by decide)
    (by decide)
    (by
      intro i hi hlt
      have hi2 : i < 2 := by simpa using hi
      have hi1 : i = 1 := by omega
      subst hi1
      show (0x80 : Nat) ≤ 0x80 ∧ (0x80 : Nat) ≤ 0xBF
      decide)
  obtain ⟨h1, h2, h3⟩ := h
  have h4 := h3 2 (by decide)
  exact ⟨h1, by simpa using h2, by simpa using h4.1, by omega⟩

/-- C8: on the reference input bytes, the ASCII-mode and UTF-8-mode aligned
outputs collect to exactly the reference strings of the repository's tests,
each with total character count equal to the total byte count. -/
theorem claim_end_to_end :
    asciiAligned testBytes = expectedASCII.data.map Char.toNat ∧
      utf8Aligned testBytes = expectedUTF8.data.map Char.toNat ∧
      (asciiAligned testBytes).length = testBytes.length ∧
      (utf8Aligned testBytes).length = testBytes.length := by
  refine ⟨by decide, by decide, by decide, by decide⟩
